import Mathlib

/-!
Verification of the `cellar-static-deploy` bucket-synchronization engine.

This file gives a shallow embedding of the core of the repository —
MIME-type inference (`getContentType`), relative-key derivation
(`uploadFile`), the progress/statistics accounting (`calculateStats`),
bucket creation (`createBucket`) and orchestration (`main`), the batch
bucket clearer (`clearBucket`) and the pull-based upload worker pool
(`uploadFolder`) — and proves the specified properties about it.

Conventions of the embedding:
* JavaScript strings are Lean `String`s; character-level operations work
  on `String.data`.  `toLowerCase` is modelled on its ASCII fragment
  (file extensions in scope are ASCII).
* JavaScript numbers, where only exact integer/rational values and the
  IEEE special values matter, are modelled by `JSNum`
  (rationals extended with infinities and NaN; rounding of finite
  values is abstracted away since no claim depends on it).
* The cooperative (event-loop) concurrency of the upload worker pool is
  modelled by a small-step transition relation: each synchronous block
  between two `await` suspension points is one atomic step.
* Fallible code returns `Except`/an outcome type; loops whose
  termination is not structural are given explicit fuel.
-/

namespace CellarDeploy

/-! ## MIME type inference: `getContentType` (src/src/file-utils.ts)

`getContentType` computes `filename.toLowerCase().split('.').pop()` and
looks the result up in a fixed extension table, defaulting to
`application/octet-stream`.
-/

/-- ASCII fragment of JavaScript `String.prototype.toLowerCase`. -/
def jsToLower (s : String) : String := ⟨s.data.map Char.toLower⟩

/-- JavaScript `String.prototype.split('.')`: splits at every dot; an
empty string yields `[""]`, leading/trailing/adjacent dots yield empty
components. -/
def splitDot : List Char → List (List Char)
  | [] => [[]]
  | c :: cs =>
    if c = '.' then [] :: splitDot cs
    else
      match splitDot cs with
      | [] => [[c]]
      | h :: t => (c :: h) :: t

/-- The extension as computed by the source:
`filename.toLowerCase().split('.').pop()` (the last split component;
for a dot-free name this is the whole lowercased name). -/
def extOf (filename : String) : String :=
  ⟨(splitDot (jsToLower filename).data).getLastD []⟩

/-- The `mimeTypes` table of `getContentType`, in source order. -/
def mimeTypes : List (String × String) :=
  [("html", "text/html"),
   ("htm", "text/html"),
   ("css", "text/css"),
   ("js", "application/javascript"),
   ("mjs", "application/javascript"),
   ("json", "application/json"),
   ("png", "image/png"),
   ("jpg", "image/jpeg"),
   ("jpeg", "image/jpeg"),
   ("gif", "image/gif"),
   ("svg", "image/svg+xml"),
   ("webp", "image/webp"),
   ("ico", "image/x-icon"),
   ("pdf", "application/pdf"),
   ("txt", "text/plain"),
   ("xml", "application/xml"),
   ("woff", "font/woff"),
   ("woff2", "font/woff2"),
   ("ttf", "font/ttf"),
   ("eot", "application/vnd.ms-fontobject")]

/-- `getContentType` from src/src/file-utils.ts: table lookup on the
extension, defaulting to `application/octet-stream` (the `pop()` result
is never `undefined`, so `ext || ''` is the lookup key itself). -/
def getContentType (filename : String) : String :=
  match mimeTypes.lookup (extOf filename) with
  | some t => t
  | none => "application/octet-stream"

/-! ### Lemmas about the lookup and the extension computation -/

theorem lookup_mem_values {α β : Type} [BEq α] :
    ∀ (l : List (α × β)) (k : α) (v : β),
      l.lookup k = some v → v ∈ l.map Prod.snd := by
  intro l
  induction l with
  | nil => intro k v h; simp [List.lookup] at h
  | cons p rest ih =>
    intro k v h
    rw [List.lookup] at h
    rw [List.map_cons, List.mem_cons]
    cases hk : k == p.1 with
    | true =>
      simp only [hk] at h
      exact Or.inl (Option.some_inj.mp h).symm
    | false =>
      simp only [hk] at h
      exact Or.inr (ih k v h)

theorem lookup_eq_none_of_not_mem {α β : Type} [BEq α] [LawfulBEq α] :
    ∀ (l : List (α × β)) (k : α),
      k ∉ l.map Prod.fst → l.lookup k = none := by
  intro l
  induction l with
  | nil => intro k _; simp [List.lookup]
  | cons p rest ih =>
    intro k hk
    rw [List.map_cons, List.mem_cons] at hk
    push_neg at hk
    rw [List.lookup]
    have hne : (k == p.1) = false := beq_eq_false_iff_ne.mpr hk.1
    simp only [hne]
    exact ih k hk.2

theorem splitDot_ne_nil : ∀ l : List Char, splitDot l ≠ [] := by
  intro l
  induction l with
  | nil => simp [splitDot]
  | cons c cs ih =>
    rw [splitDot]
    by_cases h : c = '.'
    · simp [h]
    · simp [h]
      match hs : splitDot cs with
      | [] => simp
      | a :: b => simp

theorem splitDot_no_dot : ∀ l : List Char, '.' ∉ l → splitDot l = [l] := by
  intro l
  induction l with
  | nil => intro _; rfl
  | cons c cs ih =>
    intro h
    simp at h
    rw [splitDot]
    have hc : ¬(c = '.') := fun he => h.1 he.symm
    simp [hc, ih h.2]

theorem char_eq_of_toNat_eq {c d : Char} (h : c.toNat = d.toNat) : c = d := by
  have hv : c.val = d.val := by
    have h1 := h
    simp [Char.toNat] at h1
    exact UInt32.toNat.inj h1
  cases c; cases d; simp_all

theorem char_ofNat_toNat {n : ℕ} (h : n.isValidChar) : (Char.ofNat n).toNat = n := by
  simp [Char.ofNat, h, Char.ofNatAux, Char.toNat, UInt32.toNat, BitVec.toNat_ofNatLt]

theorem char_toLower_toNat (c : Char) :
    (Char.toLower c).toNat = if 65 ≤ c.toNat ∧ c.toNat ≤ 90 then c.toNat + 32 else c.toNat := by
  simp only [Char.toLower, ge_iff_le]
  by_cases h : 65 ≤ c.toNat ∧ c.toNat ≤ 90
  · rw [if_pos h, if_pos h]
    exact char_ofNat_toNat (Or.inl (by omega))
  · rw [if_neg h, if_neg h]

theorem char_toLower_ne_dot {c : Char} (h : c ≠ '.') : Char.toLower c ≠ '.' := by
  intro he
  have hn := char_toLower_toNat c
  rw [he] at hn
  have hdot : ('.' : Char).toNat = 46 := rfl
  rw [hdot] at hn
  by_cases hr : 65 ≤ c.toNat ∧ c.toNat ≤ 90
  · rw [if_pos hr] at hn
    omega
  · rw [if_neg hr] at hn
    exact h (char_eq_of_toNat_eq (by rw [hdot]; omega))

theorem jsToLower_no_dot {s : String} (h : '.' ∉ s.data) :
    '.' ∉ (jsToLower s).data := by
  simp only [jsToLower]
  intro hmem
  simp at hmem
  obtain ⟨c, hc, hlc⟩ := hmem
  exact char_toLower_ne_dot (fun he => h (he ▸ hc)) hlc

/-- C6: for every filename, `getContentType` returns the MIME type of
the fixed extension table and `application/octet-stream` for any
extension not in the table; in particular `a.html` → `text/html`,
`b/c.css` → `text/css`, `d.png` → `image/png`. -/
theorem getContentType_spec :
    (∀ s : String, extOf s ∉ mimeTypes.map Prod.fst →
        getContentType s = "application/octet-stream") ∧
    getContentType "x.html" = "text/html" ∧
    getContentType "x.htm" = "text/html" ∧
    getContentType "x.css" = "text/css" ∧
    getContentType "x.js" = "application/javascript" ∧
    getContentType "x.mjs" = "application/javascript" ∧
    getContentType "x.json" = "application/json" ∧
    getContentType "x.png" = "image/png" ∧
    getContentType "x.jpg" = "image/jpeg" ∧
    getContentType "x.jpeg" = "image/jpeg" ∧
    getContentType "x.gif" = "image/gif" ∧
    getContentType "x.svg" = "image/svg+xml" ∧
    getContentType "x.webp" = "image/webp" ∧
    getContentType "x.ico" = "image/x-icon" ∧
    getContentType "x.pdf" = "application/pdf" ∧
    getContentType "x.txt" = "text/plain" ∧
    getContentType "x.xml" = "application/xml" ∧
    getContentType "x.woff" = "font/woff" ∧
    getContentType "x.woff2" = "font/woff2" ∧
    getContentType "x.ttf" = "font/ttf" ∧
    getContentType "x.eot" = "application/vnd.ms-fontobject" ∧
    getContentType "a.html" = "text/html" ∧
    getContentType "b/c.css" = "text/css" ∧
    getContentType "d.png" = "image/png" := by
  refine ⟨?_, rfl, rfl, rfl, rfl, rfl, rfl, rfl, rfl, rfl, rfl, rfl, rfl,
    rfl, rfl, rfl, rfl, rfl, rfl, rfl, rfl, rfl, rfl, rfl⟩
  intro s h
  unfold getContentType
  rw [lookup_eq_none_of_not_mem _ _ h]

/-- C6 witness: a concrete unknown extension falls through to
`application/octet-stream`. -/
theorem getContentType_spec_witness :
    getContentType "archive.zzz" = "application/octet-stream" :=
  getContentType_spec.1 "archive.zzz" (by decide)

/-- C10: `getContentType` is total (it always yields one of the MIME
strings of the table or the octet-stream default), it is
case-insensitive (it depends only on the lowercased filename), for a
dot-free filename the entire lowercased name is used as the extension,
and `A.HTML` → `text/html`, `html` → `text/html`,
`README` → `application/octet-stream`. -/
theorem getContentType_total_caseInsensitive :
    (∀ s : String,
        getContentType s ∈ "application/octet-stream" :: mimeTypes.map Prod.snd) ∧
    (∀ s t : String, jsToLower s = jsToLower t →
        getContentType s = getContentType t) ∧
    (∀ s : String, '.' ∉ s.data → extOf s = jsToLower s) ∧
    getContentType "A.HTML" = "text/html" ∧
    getContentType "html" = "text/html" ∧
    getContentType "README" = "application/octet-stream" := by
  refine ⟨?_, ?_, ?_, rfl, rfl, rfl⟩
  · intro s
    unfold getContentType
    match h : mimeTypes.lookup (extOf s) with
    | some t => exact List.mem_cons_of_mem _ (lookup_mem_values _ _ _ h)
    | none => exact List.mem_cons_self _ _
  · intro s t h
    unfold getContentType extOf
    rw [h]
  · intro s h
    unfold extOf
    rw [splitDot_no_dot _ (jsToLower_no_dot h)]
    rfl

/-- C10 witness: for the dot-free name `README` the whole lowercased
name is the extension. -/
theorem getContentType_total_caseInsensitive_witness :
    extOf "README" = jsToLower "README" :=
  getContentType_total_caseInsensitive.2.2.1 "README" (by decide)

/-! ## Relative-key derivation: `uploadFile` (src/src/file-utils.ts)

`uploadFile` computes
`filePath.replace(folderPath, "").replace(/^\//, "")`:
the first occurrence of the folder path is removed, then one leading
forward slash (and only a forward slash — the regex is `/^\//`) is
stripped.  Host path separators are whatever `path.join` produced.
-/

/-- JavaScript `String.prototype.replace` with a string pattern:
replaces the first occurrence of `pat` (an empty pattern matches at
position 0). -/
def replaceFirstL (pat rep : List Char) : List Char → List Char
  | [] => if pat.isPrefixOf ([] : List Char) then rep ++ List.drop pat.length [] else []
  | c :: cs =>
    if pat.isPrefixOf (c :: cs) then rep ++ List.drop pat.length (c :: cs)
    else c :: replaceFirstL pat rep cs

def jsReplaceFirst (s pat rep : String) : String :=
  ⟨replaceFirstL pat.data rep.data s.data⟩

/-- The regex `/^\//` with empty replacement: removes one leading
forward slash, and nothing else. -/
def stripLeadingSlash (s : String) : String :=
  match s.data with
  | '/' :: rest => ⟨rest⟩
  | _ => s

/-- The object key computed by `uploadFile`:
`filePath.replace(folderPath, "").replace(/^\//, "")`. -/
def relativeKey (folderPath filePath : String) : String :=
  stripLeadingSlash (jsReplaceFirst filePath folderPath "")

theorem replaceFirstL_of_isPrefixOf (pat rep : List Char) :
    ∀ s : List Char, pat.isPrefixOf s →
      replaceFirstL pat rep s = rep ++ s.drop pat.length := by
  intro s hs
  cases s with
  | nil => rw [replaceFirstL, if_pos hs]
  | cons c cs => rw [replaceFirstL, if_pos hs]

theorem replaceFirstL_append (pat rep rest : List Char) :
    replaceFirstL pat rep (pat ++ rest) = rep ++ rest := by
  rw [replaceFirstL_of_isPrefixOf pat rep (pat ++ rest)
    (List.isPrefixOf_iff_prefix.mpr (List.prefix_append pat rest))]
  rw [List.drop_left]

/-- C5 (amended): on a forward-slash host the key of a file at
`root/rel` is exactly `rel` (the first occurrence of the root —
necessarily its prefix occurrence — is removed and the leading `/` is
stripped), and it is non-empty whenever `rel` is; but the stripping is
NOT separator-agnostic: with backslash separators the key keeps the
leading backslash and all backslashes. -/
theorem relativeKey_spec :
    (∀ root rel : String, relativeKey root (root ++ "/" ++ rel) = rel) ∧
    (∀ root rel : String, rel ≠ "" → relativeKey root (root ++ "/" ++ rel) ≠ "") ∧
    relativeKey "root" "root\\a\\b.txt" = "\\a\\b.txt" := by
  have key : ∀ root rel : String, relativeKey root (root ++ "/" ++ rel) = rel := by
    intro root rel
    unfold relativeKey jsReplaceFirst
    have hdata : (root ++ "/" ++ rel).data = root.data ++ ('/' :: rel.data) := by
      simp [String.data_append]
    rw [hdata, replaceFirstL_append]
    show stripLeadingSlash ⟨'/' :: rel.data⟩ = rel
    unfold stripLeadingSlash
    cases rel
    rfl
  refine ⟨key, ?_, by rfl⟩
  intro root rel h
  rw [key root rel]
  exact h

/-- C5 counterexample: the claim that a file at `root/a/b.txt` gets key
`a/b.txt` regardless of host path separator conventions fails under a
backslash convention — the leading backslash is not stripped and the
backslashes are kept. -/
theorem relativeKey_backslash_counterexample :
    relativeKey "root" "root\\a\\b.txt" ≠ "a/b.txt" := by
  decide

/-- C5 witness: a concrete non-empty relative path yields a non-empty
key. -/
theorem relativeKey_spec_witness :
    relativeKey "root" ("root" ++ "/" ++ "a/b.txt") ≠ "" :=
  relativeKey_spec.2.1 "root" "a/b.txt" (by decide)

/-! ## Progress/statistics accounting: `calculateStats` (src/src/types.ts)

`calculateStats` computes
`rate = (count / (Date.now() - startTime) * 1000).toFixed(1)` with no
guard on the elapsed milliseconds.  JavaScript numbers are modelled by
rationals extended with the IEEE special values (rounding of finite
values is abstracted; the claim only concerns the zero-divisor
behaviour, which is exact). -/

inductive JSNum
  | finite (q : ℚ)
  | posInf
  | negInf
  | nan
deriving DecidableEq

/-- IEEE-754 division as exposed by JavaScript `/` (no negative zero in
the model). -/
def jsDiv : JSNum → JSNum → JSNum
  | .nan, _ => .nan
  | _, .nan => .nan
  | .finite a, .finite b =>
    if b = 0 then
      if a = 0 then .nan else if 0 < a then .posInf else .negInf
    else .finite (a / b)
  | .finite _, .posInf => .finite 0
  | .finite _, .negInf => .finite 0
  | .posInf, .finite b => if b < 0 then .negInf else .posInf
  | .negInf, .finite b => if b < 0 then .posInf else .negInf
  | .posInf, .posInf => .nan
  | .posInf, .negInf => .nan
  | .negInf, .posInf => .nan
  | .negInf, .negInf => .nan

/-- IEEE-754 multiplication as exposed by JavaScript `*`. -/
def jsMul : JSNum → JSNum → JSNum
  | .nan, _ => .nan
  | _, .nan => .nan
  | .finite a, .finite b => .finite (a * b)
  | .finite a, .posInf => if a = 0 then .nan else if 0 < a then .posInf else .negInf
  | .finite a, .negInf => if a = 0 then .nan else if 0 < a then .negInf else .posInf
  | .posInf, .finite b => if b = 0 then .nan else if 0 < b then .posInf else .negInf
  | .negInf, .finite b => if b = 0 then .nan else if 0 < b then .negInf else .posInf
  | .posInf, .posInf => .posInf
  | .posInf, .negInf => .negInf
  | .negInf, .posInf => .negInf
  | .negInf, .negInf => .posInf

/-- The rate value computed by `calculateStats` before `toFixed`:
`count / (Date.now() - startTime) * 1000` with `Date.now()` passed as
`now`. -/
def calculateStatsRate (startTime now : ℤ) (count : ℕ) : JSNum :=
  jsMul (jsDiv (.finite (count : ℚ)) (.finite ((now - startTime : ℤ) : ℚ)))
    (.finite 1000)

/-- C9 counterexample: at zero elapsed milliseconds and a zero
processed count the unguarded division `0 / 0` yields `NaN` — the rate
is neither clamped nor a very large or infinite-looking number, so no
special-casing of zero elapsed time exists. -/
theorem calculateStats_counterexample :
    calculateStatsRate 0 0 0 = JSNum.nan ∧ JSNum.nan ≠ JSNum.posInf := by
  constructor
  · rfl
  · intro h
    cases h

/-- C9 (amended): `calculateStats` performs the division with the raw
elapsed-millisecond value and no clamp or special case; JavaScript
IEEE semantics nevertheless make it total and non-crashing: any
non-zero elapsed time (including times whose display rounds to 0.0 s)
gives a finite rate, zero elapsed with a positive count gives
`Infinity`, and zero elapsed with a zero count gives `NaN`. -/
theorem calculateStats_rate_total (startTime now : ℤ) (count : ℕ) :
    (now - startTime ≠ 0 →
      ∃ q : ℚ, calculateStatsRate startTime now count = .finite q) ∧
    (now - startTime = 0 → 0 < count →
      calculateStatsRate startTime now count = .posInf) ∧
    (now - startTime = 0 → count = 0 →
      calculateStatsRate startTime now count = .nan) := by
  unfold calculateStatsRate
  refine ⟨?_, ?_, ?_⟩
  · intro h
    have hq : ((now - startTime : ℤ) : ℚ) ≠ 0 := by
      exact_mod_cast h
    rw [jsDiv, if_neg hq]
    exact ⟨_, rfl⟩
  · intro h hc
    have hq : ((now - startTime : ℤ) : ℚ) = 0 := by exact_mod_cast h
    have hcq : ¬((count : ℚ) = 0) := by
      simp
      omega
    have hcq' : (0 : ℚ) < (count : ℚ) := by exact_mod_cast hc
    rw [jsDiv, if_pos hq, if_neg hcq, if_pos hcq']
    rw [jsMul, if_neg (by norm_num), if_pos (by norm_num)]
  · intro h hc
    have hq : ((now - startTime : ℤ) : ℚ) = 0 := by exact_mod_cast h
    have hcq : ((count : ℚ) = 0) := by exact_mod_cast hc
    rw [jsDiv, if_pos hq, if_pos hcq]
    rfl

/-- C9 witness: with equal timestamps and five processed items the rate
is `Infinity`. -/
theorem calculateStats_rate_total_witness :
    calculateStatsRate 7 7 5 = JSNum.posInf :=
  (calculateStats_rate_total 7 7 5).2.1 (by norm_num) (by norm_num)

/-! ## Bucket creation and orchestration (s3-client, src/index.ts)

`createBucket` issues one `fetch` PUT and treats
`response.ok || response.status === 200 || response.status === 409` as
success; every failure path prints the manual-creation instructions.
`main` aborts with `process.exit(1)` when `ensureBucketExists` returns
false, before `clearBucket` and `uploadFolder` run. -/

structure HttpResponse where
  status : ℕ
deriving DecidableEq

/-- `Response.ok` of `fetch`: status in the 200–299 range. -/
def respOk (r : HttpResponse) : Bool :=
  decide (200 ≤ r.status) && decide (r.status < 300)

structure CreateBucketResult where
  success : Bool
  instructionsShown : Bool
deriving DecidableEq

/-- `createBucket`: `none` models a transport failure (`fetch` threw). -/
def createBucket (resp : Option HttpResponse) : CreateBucketResult :=
  match resp with
  | some r =>
    if respOk r || r.status == 200 || r.status == 409 then ⟨true, false⟩
    else ⟨false, true⟩
  | none => ⟨false, true⟩

/-- The distinct outcomes of the initial `client.list()` probe in
`ensureBucketExists`. -/
inductive ListOutcome
  | ok
  | noSuchBucket
  | invalidAccessKey
  | signatureMismatch
  | otherError
deriving DecidableEq

/-- `ensureBucketExists`: an accessible bucket succeeds; a missing
bucket is created via `createBucket`; credential or generic errors
fail. -/
def ensureBucketExists (lo : ListOutcome) (createResp : Option HttpResponse) : Bool :=
  match lo with
  | .ok => true
  | .noSuchBucket => (createBucket createResp).success
  | .invalidAccessKey => false
  | .signatureMismatch => false
  | .otherError => false

structure RunTrace where
  exitCode : Option ℕ
  clearStarted : Bool
  uploadStarted : Bool
deriving DecidableEq

/-- The orchestration skeleton of `main` (src/index.ts):
bucket check → clear → upload, aborting with exit code 1 on a failed
bucket check or a fatal phase error. -/
def mainRun (lo : ListOutcome) (createResp : Option HttpResponse)
    (clearFatal uploadFatal : Bool) : RunTrace :=
  if ensureBucketExists lo createResp then
    if clearFatal then ⟨some 1, true, false⟩
    else if uploadFatal then ⟨some 1, true, true⟩
    else ⟨none, true, true⟩
  else ⟨some 1, false, false⟩

/-- C8: `createBucket` succeeds exactly on an OK (2xx, hence also 200)
or 409 response; any other status or a transport failure yields
failure with the manual instructions shown, and `main` then aborts
with exit code 1 with neither clearing nor uploading started. -/
theorem createBucket_spec :
    (∀ resp, (createBucket resp).success = true ↔
      ∃ r, resp = some r ∧ (respOk r = true ∨ r.status = 409)) ∧
    (∀ resp, (createBucket resp).success = false →
      (createBucket resp).instructionsShown = true) ∧
    (∀ lo resp cf uf, ensureBucketExists lo resp = false →
      mainRun lo resp cf uf = ⟨some 1, false, false⟩) := by
  refine ⟨?_, ?_, ?_⟩
  · intro resp
    cases resp with
    | none =>
      constructor
      · intro h
        simp [createBucket] at h
      · rintro ⟨r, hr, _⟩
        cases hr
    | some r =>
      by_cases h : (respOk r || r.status == 200 || r.status == 409) = true
      · rw [createBucket, if_pos h]
        simp only [true_iff]
        refine ⟨r, rfl, ?_⟩
        simp [respOk] at h ⊢
        omega
      · rw [createBucket, if_neg h]
        constructor
        · intro hf
          cases hf
        rintro ⟨r', hr', hc⟩
        exfalso
        apply h
        obtain rfl : r = r' := by injection hr'
        simp [respOk] at hc ⊢
        omega
  · intro resp h
    cases resp with
    | none => rfl
    | some r =>
      by_cases hc : (respOk r || r.status == 200 || r.status == 409) = true
      · rw [createBucket, if_pos hc] at h ⊢
        cases h
      · rw [createBucket, if_neg hc]
  · intro lo resp cf uf h
    rw [mainRun, h]
    rfl

/-- C8 witness: an invalid access key aborts the run before clearing or
uploading. -/
theorem createBucket_spec_witness :
    mainRun .invalidAccessKey none false false = ⟨some 1, false, false⟩ :=
  createBucket_spec.2.2 .invalidAccessKey none false false rfl

/-! ## Batch clearer: `clearBucket` (s3-client)

`clearBucket` loops: list up to `BATCH_DELETE_SIZE` objects; if the
page is empty, report (`already empty` when nothing was ever deleted)
and stop; otherwise delete every listed object in parallel
(`Promise.all`), count the entries whose promise resolved `true`
(an entry returns `false` — without any delete call — when `obj.key`
is falsy), and stop when the page was shorter than the batch size.
There is no per-delete `try`/`catch`: a rejected delete rejects the
whole `Promise.all`, is caught by the outer handler and rethrown.

The remote bucket is modelled as the list of its object keys in
listing order (S3 keys are unique; a falsy `obj.key` is the empty
string); `fails k` says whether the delete call for key `k` rejects.
-/

def BATCH_DELETE_SIZE : ℕ := 1000

inductive ClearReport
  | alreadyEmpty
  | allDeleted (total : ℕ)
deriving DecidableEq

structure ClearState where
  store : List String
  totalDeleted : ℕ
  listCalls : ℕ
  deleteCalls : ℕ
  batchCount : ℕ
  pageSizes : List ℕ
deriving DecidableEq

inductive ClearOutcome
  | fatal (key : String)
  | finished (final : ClearState) (report : ClearReport)
  | outOfFuel (s : ClearState)
deriving DecidableEq

/-- One-to-one embedding of the `while (true)` loop of `clearBucket`,
with explicit fuel (the loop itself has no structural bound; every
claim is proved with sufficient fuel). -/
def clearLoop (fails : String → Bool) : ℕ → ClearState → ClearOutcome
  | 0, s => .outOfFuel s
  | fuel + 1, s =>
    let page := s.store.take BATCH_DELETE_SIZE
    let s1 := { s with listCalls := s.listCalls + 1 }
    if page.isEmpty then
      .finished s1
        (if s1.totalDeleted = 0 then .alreadyEmpty else .allDeleted s1.totalDeleted)
    else
      match page.find? (fun k => !(k == "") && fails k) with
      | some k => .fatal k
      | none =>
        let deletedInBatch := (page.filter (fun k => !(k == ""))).length
        let s2 : ClearState :=
          { store := page.filter (fun k => k == "") ++ s.store.drop BATCH_DELETE_SIZE,
            totalDeleted := s1.totalDeleted + deletedInBatch,
            listCalls := s1.listCalls,
            deleteCalls := s1.deleteCalls + deletedInBatch,
            batchCount := s1.batchCount + 1,
            pageSizes := s1.pageSizes ++ [page.length] }
        if page.length < BATCH_DELETE_SIZE then
          .finished s2 (.allDeleted s2.totalDeleted)
        else
          clearLoop fails fuel s2

/-- `clearBucket` run on a bucket holding `store`: the loop needs at
most one iteration more than there are objects. -/
def clearBucket (fails : String → Bool) (store : List String) : ClearOutcome :=
  clearLoop fails (store.length + 1) ⟨store, 0, 0, 0, 0, []⟩

/-- The listing-page sizes a bucket of `n` (deletable) objects
produces: pages of `BATCH_DELETE_SIZE` and a final shorter page (none
when `BATCH_DELETE_SIZE` divides `n`; the loop then observes one extra
empty listing). -/
def expectedPageSizes (n : ℕ) : List ℕ :=
  (List.range ((n + BATCH_DELETE_SIZE - 1) / BATCH_DELETE_SIZE)).map
    (fun i => min BATCH_DELETE_SIZE (n - BATCH_DELETE_SIZE * i))

theorem expectedPageSizes_zero : expectedPageSizes 0 = [] := by
  decide

theorem expectedPageSizes_small {n : ℕ} (h0 : 0 < n) (h1 : n ≤ 1000) :
    expectedPageSizes n = [n] := by
  unfold expectedPageSizes BATCH_DELETE_SIZE
  have hc : (n + 1000 - 1) / 1000 = 1 := by omega
  have hr : List.range 1 = [0] := rfl
  rw [hc, hr, List.map_cons, List.map_nil]
  congr 1
  omega

theorem expectedPageSizes_large {n : ℕ} (h : 1000 < n) :
    expectedPageSizes n = 1000 :: expectedPageSizes (n - 1000) := by
  unfold expectedPageSizes BATCH_DELETE_SIZE
  have hc : (n + 1000 - 1) / 1000 = (n - 1000 + 1000 - 1) / 1000 + 1 := by
    omega
  rw [hc, List.range_succ_eq_map, List.map_cons, List.map_map]
  refine List.cons_eq_cons.mpr ⟨by omega, ?_⟩
  apply List.map_congr_left
  intro i _
  simp only [Function.comp, Nat.succ_eq_add_one]
  omega

/-- Main loop lemma for the all-deletes-succeed, all-keys-truthy run:
the loop drains the store page by page and the accounting is exact. -/
theorem clearLoop_ok (fails : String → Bool) :
    ∀ (fuel : ℕ) (store : List String) (d lc dc bc : ℕ) (ps : List ℕ),
      (∀ k ∈ store, k ≠ "") → (∀ k ∈ store, fails k = false) →
      store.length < fuel →
      clearLoop fails fuel ⟨store, d, lc, dc, bc, ps⟩ =
        .finished
          ⟨[], d + store.length, lc + store.length / BATCH_DELETE_SIZE + 1,
            dc + store.length, bc + (expectedPageSizes store.length).length,
            ps ++ expectedPageSizes store.length⟩
          (if d + store.length = 0 then .alreadyEmpty
           else .allDeleted (d + store.length)) := by
  intro fuel
  induction fuel with
  | zero =>
    intro store d lc dc bc ps _ _ hf
    omega
  | succ fuel ih =>
    intro store d lc dc bc ps hkeys hok hf
    simp only [clearLoop, BATCH_DELETE_SIZE]
    cases hstore : store with
    | nil =>
      simp [expectedPageSizes_zero]
    | cons x xs =>
      rw [← hstore]
      have hpos : 0 < store.length := by rw [hstore]; simp
      have hpage_sub : ∀ k ∈ store.take 1000, k ∈ store :=
        fun k hk => List.take_subset _ _ hk
      have hpage_ne : (store.take 1000).isEmpty = false := by
        rw [hstore, show (1000 : ℕ) = 999 + 1 from rfl, List.take_succ_cons]
        rfl
      have hfind : (store.take 1000).find?
          (fun k => !(k == "") && fails k) = none := by
        rw [List.find?_eq_none]
        intro k hk
        rw [hok k (hpage_sub k hk)]
        simp
      have hfilter_all : (store.take 1000).filter
          (fun k => !(k == "")) = store.take 1000 := by
        rw [List.filter_eq_self]
        intro k hk
        have := hkeys k (hpage_sub k hk)
        simp [this]
      have hfilter_none : (store.take 1000).filter
          (fun k => k == "") = [] := by
        rw [List.filter_eq_nil_iff]
        intro k hk
        have := hkeys k (hpage_sub k hk)
        simp [this]
      rw [hpage_ne]
      rw [if_neg Bool.false_ne_true]
      rw [hfind, hfilter_all, hfilter_none, List.nil_append, List.length_take]
      by_cases hstrict : store.length < 1000
      · -- a single short page finishes the run
        have hmin : min 1000 store.length = store.length := by omega
        rw [hmin, if_pos hstrict]
        have hdrop : store.drop 1000 = [] := List.drop_eq_nil_of_le (by omega)
        rw [hdrop]
        have hdiv : store.length / 1000 = 0 := Nat.div_eq_of_lt hstrict
        rw [expectedPageSizes_small hpos (by omega), hdiv]
        rw [if_neg (by omega)]
        rfl
      · push_neg at hstrict
        by_cases heq : store.length = 1000
        · -- exactly one full page, then an empty listing next iteration
          have hmin : min 1000 store.length = 1000 := by omega
          rw [hmin, if_neg (by omega)]
          have hdrop : store.drop 1000 = [] := List.drop_eq_nil_of_le (by omega)
          rw [hdrop]
          have hfuel2 : (List.length ([] : List String)) < fuel := by
            simp only [List.length_nil]
            omega
          rw [ih [] (d + 1000) (lc + 1) (dc + 1000) (bc + 1)
            (ps ++ [1000]) (by simp) (by simp) hfuel2]
          simp only [List.length_nil, Nat.add_zero, Nat.zero_div,
            expectedPageSizes_zero, List.length_nil, List.append_nil]
          rw [expectedPageSizes_small (by omega) (by omega), heq]
          have hdiv : (1000 : ℕ) / 1000 = 1 := by omega
          rw [hdiv]
          simp
        · -- more than one full page: recurse on the dropped store
          have hlarge : 1000 < store.length := by omega
          have hmin : min 1000 store.length = 1000 := by omega
          rw [hmin, if_neg (by omega)]
          have hlen_drop : (store.drop 1000).length = store.length - 1000 := by
            simp
          have hfuel2 : (store.drop 1000).length < fuel := by
            rw [hlen_drop]
            omega
          rw [ih (store.drop 1000) (d + 1000) (lc + 1)
            (dc + 1000) (bc + 1) (ps ++ [1000])
            (fun k hk => hkeys k (List.drop_subset _ _ hk))
            (fun k hk => hok k (List.drop_subset _ _ hk)) hfuel2]
          rw [hlen_drop]
          have hd' : d + 1000 + (store.length - 1000) = d + store.length := by
            omega
          have hdc' : dc + 1000 + (store.length - 1000) = dc + store.length := by
            omega
          have hdiv : (store.length - 1000) / 1000 + 1 = store.length / 1000 := by
            omega
          have heps := expectedPageSizes_large hlarge
          rw [hd', hdc', heps]
          simp only [List.length_cons, List.append_assoc, List.singleton_append,
            BATCH_DELETE_SIZE]
          have hlc : lc + 1 + (store.length - 1000) / 1000 + 1 =
              lc + store.length / 1000 + 1 := by omega
          have hbc : bc + 1 + (expectedPageSizes (store.length - 1000)).length =
              bc + ((expectedPageSizes (store.length - 1000)).length + 1) := by
            omega
          rw [hlc, hbc]

/-- C2: for a bucket of `N` objects (truthy keys, all deletes
succeeding) `clearBucket` terminates with zero objects remaining, a
deleted-count equal to the `N` successful deletions, `N/1000 + 1`
listing calls and `N` delete calls; an empty bucket reports
`already empty` with no delete calls; and at `N = 2500` there are
exactly 3 listing calls returning pages of 1000, 1000 and 500, and
exactly 2500 delete calls (the short final page ends the loop). -/
theorem clearBucket_spec (fails : String → Bool) (store : List String)
    (hkeys : ∀ k ∈ store, k ≠ "") (hok : ∀ k ∈ store, fails k = false) :
    clearBucket fails store =
      .finished
        ⟨[], store.length, store.length / BATCH_DELETE_SIZE + 1, store.length,
          (expectedPageSizes store.length).length, expectedPageSizes store.length⟩
        (if store.length = 0 then .alreadyEmpty
         else .allDeleted store.length) ∧
    (store = [] →
      clearBucket fails store = .finished ⟨[], 0, 1, 0, 0, []⟩ .alreadyEmpty) ∧
    (store.length = 2500 →
      store.length / BATCH_DELETE_SIZE + 1 = 3 ∧
      expectedPageSizes store.length = [1000, 1000, 500]) := by
  refine ⟨?_, ?_, ?_⟩
  · have h := clearLoop_ok fails (store.length + 1) store 0 0 0 0 [] hkeys hok
      (by omega)
    simpa using h
  · intro h
    subst h
    rfl
  · intro h
    rw [h]
    constructor
    · decide
    · rw [expectedPageSizes_large (by omega), expectedPageSizes_large (by omega)]
      rw [show (2500 : ℕ) - 1000 - 1000 = 500 from rfl]
      rw [expectedPageSizes_small (by omega) (by omega)]

/-- C2 witness: a concrete two-object bucket is fully drained in one
listing call and two delete calls. -/
theorem clearBucket_spec_witness :
    clearBucket (fun _ => false) ["a", "b"] =
      .finished ⟨[], 2, 1, 2, 1, [2]⟩ (.allDeleted 2) := by
  have h := (clearBucket_spec (fun _ => false) ["a", "b"]
    (by decide) (fun k _ => rfl)).1
  simpa [BATCH_DELETE_SIZE, expectedPageSizes] using h

/-- C3 counterexample: a single rejected delete call does NOT leave the
loop running — `clearBucket` on a two-object bucket whose second
delete throws aborts fatally instead of finishing with the failure
excluded from the count. -/
theorem clearBucket_delete_failure_counterexample :
    clearBucket (fun k => k == "b") ["a", "b"] = .fatal "b" ∧
    ∀ final report,
      clearBucket (fun k => k == "b") ["a", "b"] ≠ .finished final report := by
  constructor
  · decide
  · intro final report h
    rw [show clearBucket (fun k => k == "b") ["a", "b"] = .fatal "b" from by decide]
      at h
    cases h

/-- C3 (amended): an entry with a falsy key is skipped — excluded from
the confirmed-deletion count — without aborting the batch, but an
exception thrown by an object's delete call rejects the whole
`Promise.all` batch; `clearBucket`'s outer catch reports it and
rethrows, so a single delete failure is fatal to the clearing pass. -/
theorem clearBucket_delete_failure_behavior :
    (∀ (fails : String → Bool) (fuel : ℕ) (s : ClearState) (k : String),
      (s.store.take BATCH_DELETE_SIZE).find? (fun k => !(k == "") && fails k)
        = some k →
      clearLoop fails (fuel + 1) s = .fatal k) ∧
    clearBucket (fun _ => false) ["", "a"] =
      .finished ⟨[""], 1, 1, 1, 1, [2]⟩ (.allDeleted 1) := by
  constructor
  · intro fails fuel s k h
    have hmem := List.mem_of_find?_eq_some h
    have hne : (s.store.take BATCH_DELETE_SIZE).isEmpty = false := by
      cases htake : s.store.take BATCH_DELETE_SIZE with
      | nil =>
        rw [htake] at hmem
        cases hmem
      | cons a b => rfl
    simp only [clearLoop, hne, Bool.false_eq_true, if_false, h]
  · decide

/-- C3 amended-claim witness: a failing delete in the first page is
fatal with that key. -/
theorem clearBucket_delete_failure_behavior_witness :
    clearBucket (fun k => k == "a") ["a", "b"] = .fatal "a" :=
  clearBucket_delete_failure_behavior.1 (fun k => k == "a") 2
    ⟨["a", "b"], 0, 0, 0, 0, []⟩ "a" (by decide)

/-! ## Upload scheduler: `uploadFolder` (src/src/file-utils.ts)

`uploadFolder` scans the folder once into `files`, then launches
exactly `workers` copies of `processFile`.  Each copy loops: it reads
and post-increments the shared `fileIndex` cursor (one synchronous
event-loop block, hence atomic — no `await` separates the bounds check,
the read and the increment), skips a falsy path, otherwise awaits
`uploadFile` (the put operation), incrementing `uploaded` on success
and `failed` (with a logged error) on failure, and returns when the
cursor has passed the end of `files`.

The cooperative interleaving is modelled by `Step`: every constructor
is one synchronous block between suspension points.  `fails i` says
whether the upload of file index `i` rejects. -/

inductive WStatus
  | idle
  | busy (i : ℕ)
  | done
deriving DecidableEq

structure PoolState where
  cursor : ℕ
  workers : List WStatus
  claims : List (ℕ × ℕ)
  finished : List ℕ
  uploaded : ℕ
  failed : ℕ
  puts : ℕ
deriving DecidableEq

/-- The pool state right after `getAllFiles` resolved and the
`workers` copies of `processFile` were pushed: cursor at 0, every
worker about to poll the cursor. -/
def initPool (w : ℕ) : PoolState :=
  ⟨0, List.replicate w .idle, [], [], 0, 0, 0⟩

/-- The indices of the uploads currently in flight. -/
def busyIdxs : List WStatus → List ℕ
  | [] => []
  | .busy i :: rest => i :: busyIdxs rest
  | .idle :: rest => busyIdxs rest
  | .done :: rest => busyIdxs rest

/-- The in-flight index of a single worker, as a (0- or 1-element)
list. -/
def statusIdx : WStatus → List ℕ
  | .busy i => [i]
  | _ => []

def isBusy : WStatus → Bool
  | .busy _ => true
  | _ => false

def isIdle : WStatus → Bool
  | .idle => true
  | _ => false

/-- One synchronous event-loop block of the worker pool.
`claim_put`: an idle worker claims index `cursor` (recording which
worker claimed it), increments the shared cursor and starts the put.
`claim_skip`: the claimed path is falsy (`if (!filePath) continue`), no
put is issued.  `finish_ok`/`finish_fail`: an in-flight upload settles
and the worker returns to polling.  `exit`: an idle worker observes
`cursor ≥ files.length` and its `processFile` promise resolves. -/
inductive Step (files : List String) (fails : ℕ → Bool) : PoolState → PoolState → Prop
  | claim_put (s : PoolState) (w : ℕ)
      (hw : s.workers[w]? = some .idle)
      (hc : s.cursor < files.length)
      (hp : files.getD s.cursor "" ≠ "") :
      Step files fails s
        { cursor := s.cursor + 1,
          workers := s.workers.set w (.busy s.cursor),
          claims := s.claims ++ [(w, s.cursor)],
          finished := s.finished,
          uploaded := s.uploaded, failed := s.failed, puts := s.puts + 1 }
  | claim_skip (s : PoolState) (w : ℕ)
      (hw : s.workers[w]? = some .idle)
      (hc : s.cursor < files.length)
      (hp : files.getD s.cursor "" = "") :
      Step files fails s
        { cursor := s.cursor + 1,
          workers := s.workers,
          claims := s.claims ++ [(w, s.cursor)],
          finished := s.finished ++ [s.cursor],
          uploaded := s.uploaded, failed := s.failed, puts := s.puts }
  | finish_ok (s : PoolState) (w i : ℕ)
      (hw : s.workers[w]? = some (.busy i))
      (hf : fails i = false) :
      Step files fails s
        { cursor := s.cursor,
          workers := s.workers.set w .idle,
          claims := s.claims,
          finished := s.finished ++ [i],
          uploaded := s.uploaded + 1, failed := s.failed, puts := s.puts }
  | finish_fail (s : PoolState) (w i : ℕ)
      (hw : s.workers[w]? = some (.busy i))
      (hf : fails i = true) :
      Step files fails s
        { cursor := s.cursor,
          workers := s.workers.set w .idle,
          claims := s.claims,
          finished := s.finished ++ [i],
          uploaded := s.uploaded, failed := s.failed + 1, puts := s.puts }
  | exit (s : PoolState) (w : ℕ)
      (hw : s.workers[w]? = some .idle)
      (hc : files.length ≤ s.cursor) :
      Step files fails s
        { cursor := s.cursor,
          workers := s.workers.set w .done,
          claims := s.claims,
          finished := s.finished,
          uploaded := s.uploaded, failed := s.failed, puts := s.puts }

/-- `n`-step executions of the pool. -/
inductive StepsN (files : List String) (fails : ℕ → Bool) :
    ℕ → PoolState → PoolState → Prop
  | refl (s : PoolState) : StepsN files fails 0 s s
  | tail {n : ℕ} {s t u : PoolState} :
      StepsN files fails n s t → Step files fails t u →
      StepsN files fails (n + 1) s u

/-- A state no event-loop block can leave. -/
def Terminal (files : List String) (fails : ℕ → Bool) (s : PoolState) : Prop :=
  ∀ t, ¬ Step files fails s t

/-! ### Helper lemmas on worker lists -/

theorem busyIdxs_cons (x : WStatus) (rest : List WStatus) :
    busyIdxs (x :: rest) = statusIdx x ++ busyIdxs rest := by
  cases x <;> rfl

theorem busyIdxs_replicate_idle (n : ℕ) :
    busyIdxs (List.replicate n .idle) = [] := by
  induction n with
  | zero => rfl
  | succ n ih => rw [List.replicate_succ, busyIdxs_cons, ih]; rfl

theorem perm_swap_ends {α : Type} (u v X : List α) :
    ((u ++ X) ++ v).Perm ((v ++ X) ++ u) := by
  have h1 : ((u ++ X) ++ v).Perm (v ++ (u ++ X)) := List.perm_append_comm
  have h2 : (v ++ (u ++ X)).Perm (v ++ (X ++ u)) :=
    List.Perm.append_left v List.perm_append_comm
  have h3 : v ++ (X ++ u) = (v ++ X) ++ u := (List.append_assoc v X u).symm
  exact h1.trans (h3 ▸ h2)

/-- Replacing the worker at position `w` exchanges its in-flight index
for the new one, up to permutation. -/
theorem busyIdxs_set :
    ∀ (ws : List WStatus) (w : ℕ) (a b : WStatus), ws[w]? = some a →
      (busyIdxs (ws.set w b) ++ statusIdx a).Perm (busyIdxs ws ++ statusIdx b) := by
  intro ws
  induction ws with
  | nil =>
    intro w a b hw
    simp at hw
  | cons x rest ih =>
    intro w a b hw
    cases w with
    | zero =>
      simp only [List.getElem?_cons_zero, Option.some_inj] at hw
      subst hw
      rw [List.set_cons_zero, busyIdxs_cons, busyIdxs_cons]
      exact perm_swap_ends (statusIdx b) (statusIdx x) (busyIdxs rest)
    | succ w' =>
      simp only [List.getElem?_cons_succ] at hw
      rw [List.set_cons_succ, busyIdxs_cons, busyIdxs_cons, List.append_assoc,
        List.append_assoc]
      exact List.Perm.append_left (statusIdx x) (ih w' a b hw)

theorem countP_set (p : WStatus → Bool) :
    ∀ (ws : List WStatus) (w : ℕ) (a b : WStatus), ws[w]? = some a →
      (ws.set w b).countP p + (if p a then 1 else 0) =
        ws.countP p + (if p b then 1 else 0) := by
  intro ws
  induction ws with
  | nil =>
    intro w a b hw
    simp at hw
  | cons x rest ih =>
    intro w a b hw
    cases w with
    | zero =>
      simp only [List.getElem?_cons_zero, Option.some_inj] at hw
      subst hw
      rw [List.set_cons_zero, List.countP_cons, List.countP_cons]
      omega
    | succ w' =>
      simp only [List.getElem?_cons_succ] at hw
      rw [List.set_cons_succ, List.countP_cons, List.countP_cons]
      have := ih w' a b hw
      omega

theorem busyIdxs_eq_nil_of_allDone {ws : List WStatus}
    (h : ∀ x ∈ ws, x = WStatus.done) : busyIdxs ws = [] := by
  induction ws with
  | nil => rfl
  | cons x rest ih =>
    have hx : x = WStatus.done := h x (List.mem_cons_self _ _)
    subst hx
    rw [busyIdxs_cons]
    exact ih (fun y hy => h y (List.mem_cons_of_mem _ hy))

/-- The bool predicate "the path at index `i` is truthy". -/
def pathOkB (files : List String) (i : ℕ) : Bool := !(files.getD i "" == "")

/-- The pool invariant: the claim log is exactly `0, 1, …, cursor-1`
in order (the post-increment hands out successive fresh indices); the
cursor never passes the end; the processed and in-flight indices
together are a permutation of the claimed ones; every in-flight index
has a truthy path; the three counters are faithful counts over the
processed indices; and a worker only exits after the cursor reached
the end. -/
structure PoolInv (files : List String) (fails : ℕ → Bool) (s : PoolState) : Prop where
  claims_eq : s.claims.map Prod.snd = List.range s.cursor
  cursor_le : s.cursor ≤ files.length
  perm : (s.finished ++ busyIdxs s.workers).Perm (s.claims.map Prod.snd)
  busy_path : ∀ i ∈ busyIdxs s.workers, files.getD i "" ≠ ""
  uploaded_eq : s.uploaded =
    s.finished.countP (fun i => pathOkB files i && !(fails i))
  failed_eq : s.failed = s.finished.countP (fun i => pathOkB files i && fails i)
  puts_eq : s.puts =
    s.finished.countP (pathOkB files) + (busyIdxs s.workers).length
  done_cursor : (∃ x ∈ s.workers, x = WStatus.done) → files.length ≤ s.cursor

theorem poolInv_init (files : List String) (fails : ℕ → Bool) (wkr : ℕ) :
    PoolInv files fails (initPool wkr) := by
  refine ⟨rfl, Nat.zero_le _, ?_, ?_, rfl, rfl, ?_, ?_⟩ <;> dsimp only [initPool]
  · rw [busyIdxs_replicate_idle]
    exact List.Perm.refl _
  · rw [busyIdxs_replicate_idle]
    intro i hi
    cases hi
  · rw [busyIdxs_replicate_idle]
    rfl
  · rintro ⟨x, hx, rfl⟩
    have := List.eq_of_mem_replicate hx
    cases this

theorem mem_busyIdxs_of_busy_mem {i : ℕ} :
    ∀ {ws : List WStatus}, WStatus.busy i ∈ ws → i ∈ busyIdxs ws := by
  intro ws
  induction ws with
  | nil =>
    intro h
    cases h
  | cons x rest ih =>
    intro h
    rcases List.mem_cons.mp h with h1 | h1
    · rw [← h1, busyIdxs_cons]
      exact List.mem_cons_self _ _
    · rw [busyIdxs_cons]
      exact List.mem_append_right _ (ih h1)

theorem poolInv_step {files : List String} {fails : ℕ → Bool} {s t : PoolState}
    (h : Step files fails s t) (inv : PoolInv files fails s) :
    PoolInv files fails t := by
  cases h with
  | claim_put w hw hc hp =>
    have hset := busyIdxs_set s.workers w .idle (.busy s.cursor) hw
    simp only [statusIdx, List.append_nil] at hset
    refine ⟨?_, ?_, ?_, ?_, inv.uploaded_eq, inv.failed_eq, ?_, ?_⟩ <;> dsimp only
    · simp only [List.map_append, List.map_cons, List.map_nil, inv.claims_eq]
      exact (List.range_succ s.cursor).symm
    · omega
    · simp only [List.map_append, List.map_cons, List.map_nil]
      refine (List.Perm.append_left _ hset).trans ?_
      rw [← List.append_assoc]
      exact inv.perm.append_right _
    · intro i hi
      rcases List.mem_append.mp (hset.mem_iff.mp hi) with h1 | h1
      · exact inv.busy_path i h1
      · rw [List.mem_singleton.mp h1]
        exact hp
    · rw [inv.puts_eq, hset.length_eq]
      simp only [List.length_append, List.length_singleton]
      omega
    · rintro ⟨x, hx, rfl⟩
      rcases List.mem_or_eq_of_mem_set hx with h1 | h1
      · have := inv.done_cursor ⟨_, h1, rfl⟩
        omega
      · cases h1
  | claim_skip w hw hc hp =>
    refine ⟨?_, ?_, ?_, inv.busy_path, ?_, ?_, ?_, ?_⟩ <;> dsimp only
    · simp only [List.map_append, List.map_cons, List.map_nil, inv.claims_eq]
      exact (List.range_succ s.cursor).symm
    · omega
    · simp only [List.map_append, List.map_cons, List.map_nil]
      rw [List.append_assoc]
      refine (List.Perm.append_left _ List.perm_append_comm).trans ?_
      rw [← List.append_assoc]
      exact inv.perm.append_right _
    · rw [inv.uploaded_eq, List.countP_append]
      have hpOk : pathOkB files s.cursor = false := by
        simp only [pathOkB, hp]
        decide
      simp [hpOk]
    · rw [inv.failed_eq, List.countP_append]
      have hpOk : pathOkB files s.cursor = false := by
        simp only [pathOkB, hp]
        decide
      simp [hpOk]
    · rw [inv.puts_eq, List.countP_append]
      have hpOk : pathOkB files s.cursor = false := by
        simp only [pathOkB, hp]
        decide
      simp [hpOk]
    · rintro ⟨x, hx, rfl⟩
      have := inv.done_cursor ⟨_, hx, rfl⟩
      omega
  | finish_ok w i hw hf =>
    have hset := busyIdxs_set s.workers w (.busy i) .idle hw
    simp only [statusIdx, List.append_nil] at hset
    have hpath : files.getD i "" ≠ "" :=
      inv.busy_path i (mem_busyIdxs_of_busy_mem (List.getElem?_mem hw))
    have hpOk : pathOkB files i = true := by
      simp only [pathOkB, Bool.not_eq_true', beq_eq_false_iff_ne]
      exact hpath
    refine ⟨inv.claims_eq, inv.cursor_le, ?_, ?_, ?_, ?_, ?_, ?_⟩ <;> dsimp only
    · rw [List.append_assoc]
      exact (List.Perm.append_left _
        (List.perm_append_comm.trans hset)).trans inv.perm
    · intro j hj
      exact inv.busy_path j (hset.mem_iff.mp (List.mem_append_left [i] hj))
    · rw [inv.uploaded_eq, List.countP_append]
      simp [hpOk, hf]
    · rw [inv.failed_eq, List.countP_append]
      simp [hpOk, hf]
    · rw [List.countP_append]
      have h1 := inv.puts_eq
      have hlen : (busyIdxs (s.workers.set w .idle)).length + 1 =
          (busyIdxs s.workers).length := by
        have h2 := hset.length_eq
        simpa using h2
      have h3 : List.countP (pathOkB files) [i] = 1 := by
        simp [hpOk]
      omega
    · rintro ⟨x, hx, rfl⟩
      apply inv.done_cursor
      rcases List.mem_or_eq_of_mem_set hx with h1 | h1
      · exact ⟨_, h1, rfl⟩
      · cases h1
  | finish_fail w i hw hf =>
    have hset := busyIdxs_set s.workers w (.busy i) .idle hw
    simp only [statusIdx, List.append_nil] at hset
    have hpath : files.getD i "" ≠ "" :=
      inv.busy_path i (mem_busyIdxs_of_busy_mem (List.getElem?_mem hw))
    have hpOk : pathOkB files i = true := by
      simp only [pathOkB, Bool.not_eq_true', beq_eq_false_iff_ne]
      exact hpath
    refine ⟨inv.claims_eq, inv.cursor_le, ?_, ?_, ?_, ?_, ?_, ?_⟩ <;> dsimp only
    · rw [List.append_assoc]
      exact (List.Perm.append_left _
        (List.perm_append_comm.trans hset)).trans inv.perm
    · intro j hj
      exact inv.busy_path j (hset.mem_iff.mp (List.mem_append_left [i] hj))
    · rw [inv.uploaded_eq, List.countP_append]
      simp [hpOk, hf]
    · rw [inv.failed_eq, List.countP_append]
      simp [hpOk, hf]
    · rw [List.countP_append]
      have h1 := inv.puts_eq
      have hlen : (busyIdxs (s.workers.set w .idle)).length + 1 =
          (busyIdxs s.workers).length := by
        have h2 := hset.length_eq
        simpa using h2
      have h3 : List.countP (pathOkB files) [i] = 1 := by
        simp [hpOk]
      omega
    · rintro ⟨x, hx, rfl⟩
      apply inv.done_cursor
      rcases List.mem_or_eq_of_mem_set hx with h1 | h1
      · exact ⟨_, h1, rfl⟩
      · cases h1
  | exit w hw hc =>
    have hset := busyIdxs_set s.workers w .idle .done hw
    simp only [statusIdx, List.append_nil] at hset
    refine ⟨inv.claims_eq, inv.cursor_le, ?_, ?_, inv.uploaded_eq,
      inv.failed_eq, ?_, ?_⟩ <;> dsimp only
    · exact (List.Perm.append_left _ hset).trans inv.perm
    · intro j hj
      exact inv.busy_path j (hset.mem_iff.mp hj)
    · rw [inv.puts_eq, hset.length_eq]
    · intro _
      exact hc

theorem poolInv_steps {files : List String} {fails : ℕ → Bool} {n : ℕ}
    {s t : PoolState} (h : StepsN files fails n s t)
    (inv : PoolInv files fails s) : PoolInv files fails t := by
  induction h with
  | refl _ => exact inv
  | tail _ hstep ih => exact poolInv_step hstep (ih inv)

theorem step_workers_length {files : List String} {fails : ℕ → Bool}
    {s t : PoolState} (h : Step files fails s t) :
    t.workers.length = s.workers.length := by
  cases h <;> simp [List.length_set]

theorem stepsN_workers_length {files : List String} {fails : ℕ → Bool}
    {n : ℕ} {s t : PoolState} (h : StepsN files fails n s t) :
    t.workers.length = s.workers.length := by
  induction h with
  | refl _ => rfl
  | tail _ hstep ih => rw [step_workers_length hstep, ih]

/-- A pool state is stuck exactly when every worker has exited: an idle
worker can always claim (or exit past the end), and a busy worker's
upload can always settle. -/
theorem terminal_iff_allDone (files : List String) (fails : ℕ → Bool)
    (s : PoolState) :
    Terminal files fails s ↔ ∀ x ∈ s.workers, x = WStatus.done := by
  constructor
  · intro ht x hx
    by_contra hne
    obtain ⟨w, hw⟩ := List.getElem?_of_mem hx
    cases x with
    | idle =>
      by_cases hc : s.cursor < files.length
      · by_cases hp : files.getD s.cursor "" = ""
        · exact ht _ (Step.claim_skip s w hw hc hp)
        · exact ht _ (Step.claim_put s w hw hc hp)
      · exact ht _ (Step.exit s w hw (by omega))
    | busy i =>
      cases hf : fails i with
      | false => exact ht _ (Step.finish_ok s w i hw hf)
      | true => exact ht _ (Step.finish_fail s w i hw hf)
    | done => exact hne rfl
  · intro hall t hstep
    cases hstep with
    | claim_put w hw hc hp =>
      have := hall _ (List.getElem?_mem hw)
      cases this
    | claim_skip w hw hc hp =>
      have := hall _ (List.getElem?_mem hw)
      cases this
    | finish_ok w i hw hf =>
      have := hall _ (List.getElem?_mem hw)
      cases this
    | finish_fail w i hw hf =>
      have := hall _ (List.getElem?_mem hw)
      cases this
    | exit w hw hc =>
      have := hall _ (List.getElem?_mem hw)
      cases this

/-- Termination measure: every event-loop block strictly decreases it. -/
def poolMeasure (files : List String) (s : PoolState) : ℕ :=
  2 * (files.length - s.cursor) + 2 * s.workers.countP isBusy +
    s.workers.countP isIdle

theorem step_measure {files : List String} {fails : ℕ → Bool}
    {s t : PoolState} (h : Step files fails s t) :
    poolMeasure files t < poolMeasure files s := by
  cases h with
  | claim_put w hw hc hp =>
    have hb := countP_set isBusy s.workers w .idle (.busy s.cursor) hw
    have hi := countP_set isIdle s.workers w .idle (.busy s.cursor) hw
    simp [isBusy, isIdle] at hb hi
    unfold poolMeasure
    dsimp only
    omega
  | claim_skip w hw hc hp =>
    unfold poolMeasure
    dsimp only
    omega
  | finish_ok w i hw hf =>
    have hb := countP_set isBusy s.workers w (.busy i) .idle hw
    have hi := countP_set isIdle s.workers w (.busy i) .idle hw
    simp [isBusy, isIdle] at hb hi
    unfold poolMeasure
    dsimp only
    omega
  | finish_fail w i hw hf =>
    have hb := countP_set isBusy s.workers w (.busy i) .idle hw
    have hi := countP_set isIdle s.workers w (.busy i) .idle hw
    simp [isBusy, isIdle] at hb hi
    unfold poolMeasure
    dsimp only
    omega
  | exit w hw hc =>
    have hb := countP_set isBusy s.workers w .idle .done hw
    have hi := countP_set isIdle s.workers w .idle .done hw
    simp [isBusy, isIdle] at hb hi
    unfold poolMeasure
    dsimp only
    omega

theorem stepsN_le_measure {files : List String} {fails : ℕ → Bool}
    {n : ℕ} {s t : PoolState} (h : StepsN files fails n s t) :
    poolMeasure files t + n ≤ poolMeasure files s := by
  induction h with
  | refl _ => omega
  | tail _ hstep ih =>
    have := step_measure hstep
    omega

theorem poolMeasure_init (files : List String) (wkr : ℕ) :
    poolMeasure files (initPool wkr) = 2 * files.length + wkr := by
  unfold poolMeasure initPool
  dsimp only
  rw [List.countP_replicate, List.countP_replicate]
  simp [isBusy, isIdle]

/-- Everything the invariant yields in a terminal reachable state:
the claim log is `0,…,M-1`, the processed indices are a permutation of
them, the counters are exact counts over all indices, and every worker
has exited. -/
theorem pool_terminal_facts {files : List String} {fails : ℕ → Bool}
    {wkr n : ℕ} {s : PoolState} (hwkr : 1 ≤ wkr)
    (hsteps : StepsN files fails n (initPool wkr) s)
    (hterm : Terminal files fails s) :
    s.claims.map Prod.snd = List.range files.length ∧
    s.finished.Perm (List.range files.length) ∧
    s.uploaded = (List.range files.length).countP
      (fun i => pathOkB files i && !(fails i)) ∧
    s.failed = (List.range files.length).countP
      (fun i => pathOkB files i && fails i) ∧
    s.puts = (List.range files.length).countP (pathOkB files) ∧
    (∀ x ∈ s.workers, x = WStatus.done) := by
  have inv := poolInv_steps hsteps (poolInv_init files fails wkr)
  have hlen : s.workers.length = wkr := by
    rw [stepsN_workers_length hsteps]
    simp [initPool]
  have hall : ∀ x ∈ s.workers, x = WStatus.done :=
    (terminal_iff_allDone files fails s).mp hterm
  have hne : s.workers ≠ [] := by
    intro h0
    rw [h0] at hlen
    simp at hlen
    omega
  obtain ⟨x, hx⟩ := List.exists_mem_of_ne_nil s.workers hne
  have hcur : files.length ≤ s.cursor := inv.done_cursor ⟨x, hx, hall x hx⟩
  have hcur' : s.cursor = files.length := le_antisymm inv.cursor_le hcur
  have hclaims : s.claims.map Prod.snd = List.range files.length := by
    rw [inv.claims_eq, hcur']
  have hbusy : busyIdxs s.workers = [] := busyIdxs_eq_nil_of_allDone hall
  have hperm : s.finished.Perm (List.range files.length) := by
    have h1 := inv.perm
    rw [hbusy, List.append_nil, hclaims] at h1
    exact h1
  refine ⟨hclaims, hperm, ?_, ?_, ?_, hall⟩
  · rw [inv.uploaded_eq]
    exact hperm.countP_eq _
  · rw [inv.failed_eq]
    exact hperm.countP_eq _
  · rw [inv.puts_eq, hbusy, List.length_nil, Nat.add_zero]
    exact hperm.countP_eq _

/-- C1: with `workerCount ≥ 1` and a scan whose `M` file paths are all
truthy, every terminal state of the scheduler has a claim log of
exactly the indices `0,…,M-1` in order — each index claimed by exactly
one worker event (the log is duplicate-free), no index skipped —
exactly `M` put operations were issued, and every worker has exited
(possible only once the cursor passed the end of the list); moreover
every execution stops within `2·M + workerCount` steps. -/
theorem uploadFolder_scheduler_spec (files : List String) (fails : ℕ → Bool)
    (wkr : ℕ) (hwkr : 1 ≤ wkr) (hfiles : ∀ f ∈ files, f ≠ "") :
    (∀ n s, StepsN files fails n (initPool wkr) s → Terminal files fails s →
      s.claims.map Prod.snd = List.range files.length ∧
      (s.claims.map Prod.snd).Nodup ∧
      s.puts = files.length ∧
      (∀ x ∈ s.workers, x = WStatus.done)) ∧
    (∀ n s, StepsN files fails n (initPool wkr) s →
      n ≤ 2 * files.length + wkr) := by
  have hpathOk : ∀ i ∈ List.range files.length, pathOkB files i = true := by
    intro i hi
    have hlt : i < files.length := List.mem_range.mp hi
    have hmem : files.getD i "" = files[i] := List.getD_eq_getElem files "" hlt
    simp only [pathOkB, hmem, Bool.not_eq_true', beq_eq_false_iff_ne]
    exact hfiles _ (List.getElem_mem hlt)
  constructor
  · intro n s hsteps hterm
    obtain ⟨hclaims, hperm, _, _, hputs, hall⟩ :=
      pool_terminal_facts hwkr hsteps hterm
    refine ⟨hclaims, ?_, ?_, hall⟩
    · rw [hclaims]
      exact List.nodup_range _
    · rw [hputs, List.countP_eq_length.mpr hpathOk, List.length_range]
  · intro n s hsteps
    have h1 := stepsN_le_measure hsteps
    rw [poolMeasure_init] at h1
    omega

/-- C1 witness: a one-file, one-worker run — claim, upload, exit —
ends terminal with index 0 claimed once and one put issued. -/
theorem uploadFolder_scheduler_spec_witness :
    ([((0 : ℕ), (0 : ℕ))] : List (ℕ × ℕ)).map Prod.snd = List.range 1 ∧
    (⟨1, [WStatus.done], [(0, 0)], [0], 1, 0, 1⟩ : PoolState).puts = 1 := by
  have hstep1 : Step ["a"] (fun _ => false) (initPool 1)
      ⟨1, [WStatus.busy 0], [(0, 0)], [], 0, 0, 1⟩ :=
    Step.claim_put (initPool 1) 0 rfl (by decide) (by decide)
  have hstep2 : Step ["a"] (fun _ => false)
      ⟨1, [WStatus.busy 0], [(0, 0)], [], 0, 0, 1⟩
      ⟨1, [WStatus.idle], [(0, 0)], [0], 1, 0, 1⟩ :=
    Step.finish_ok ⟨1, [WStatus.busy 0], [(0, 0)], [], 0, 0, 1⟩ 0 0 rfl rfl
  have hstep3 : Step ["a"] (fun _ => false)
      ⟨1, [WStatus.idle], [(0, 0)], [0], 1, 0, 1⟩
      ⟨1, [WStatus.done], [(0, 0)], [0], 1, 0, 1⟩ :=
    Step.exit ⟨1, [WStatus.idle], [(0, 0)], [0], 1, 0, 1⟩ 0 rfl (by decide)
  have hsteps : StepsN ["a"] (fun _ => false) 3 (initPool 1)
      ⟨1, [WStatus.done], [(0, 0)], [0], 1, 0, 1⟩ :=
    StepsN.tail (StepsN.tail (StepsN.tail (StepsN.refl _) hstep1) hstep2) hstep3
  have hterm : Terminal ["a"] (fun _ => false)
      ⟨1, [WStatus.done], [(0, 0)], [0], 1, 0, 1⟩ := by
    rw [terminal_iff_allDone]
    intro x hx
    exact List.mem_singleton.mp hx
  have h := (uploadFolder_scheduler_spec ["a"] (fun _ => false) 1 (by omega)
    (by decide)).1 3 _ hsteps hterm
  exact ⟨h.1, h.2.2.1⟩

/-- C7: exactly `workerCount` workers exist throughout the run, and in
every reachable state the number of uploads in flight (busy workers —
a worker that claimed an index stays busy until its upload settles) is
at most `workerCount`. -/
theorem uploadFolder_worker_bound (files : List String) (fails : ℕ → Bool)
    (wkr : ℕ) :
    ∀ n s, StepsN files fails n (initPool wkr) s →
      s.workers.length = wkr ∧ s.workers.countP isBusy ≤ wkr := by
  intro n s hsteps
  have hlen : s.workers.length = wkr := by
    rw [stepsN_workers_length hsteps]
    simp [initPool]
  refine ⟨hlen, ?_⟩
  rw [← hlen]
  exact List.countP_le_length _

/-- C7 witness: the freshly launched two-worker pool has two workers
and no more than two uploads in flight. -/
theorem uploadFolder_worker_bound_witness :
    (initPool 2).workers.length = 2 ∧
    (initPool 2).workers.countP isBusy ≤ 2 :=
  uploadFolder_worker_bound ["a"] (fun _ => false) 2 0 (initPool 2)
    (StepsN.refl _)

inductive UploadSummary
  | withErrors (uploaded failed : ℕ)
  | success (total : ℕ)
deriving DecidableEq

/-- The final summary branch of `uploadFolder`: with `failed > 0` the
"completed with errors" line shows the uploaded and failed counters,
otherwise the success line shows the total file count. -/
def summarize (total uploaded failed : ℕ) : UploadSummary :=
  if 0 < failed then .withErrors uploaded failed else .success total

/-- The outer `try`/`catch` of `uploadFolder`: only a `getAllFiles`
rejection reaches it (each worker catches its own upload errors), and
it rethrows. -/
def uploadFolderFatal (scan : Except String (List String)) : Option String :=
  match scan with
  | .error e => some e
  | .ok _ => none

/-- C4: in every terminal state the failure counter equals the number
of failing files `F`, the success and failure counters partition the
`M` files, the summary is "completed with errors" with `M − F`
successful and `F` failed when `F > 0` and the full-success report
when `F = 0`; a state with a non-exited worker can always take a step
(for any failure oracle — failures stop nothing); and `uploadFolder`
rethrows exactly a directory-scan error. -/
theorem uploadFolder_failure_handling (files : List String) (fails : ℕ → Bool)
    (wkr : ℕ) (hwkr : 1 ≤ wkr) (hfiles : ∀ f ∈ files, f ≠ "") :
    (∀ n s, StepsN files fails n (initPool wkr) s → Terminal files fails s →
      s.failed = (List.range files.length).countP (fun i => fails i) ∧
      s.uploaded + s.failed = files.length ∧
      (0 < s.failed → summarize files.length s.uploaded s.failed =
        .withErrors (files.length - s.failed) s.failed) ∧
      (s.failed = 0 → summarize files.length s.uploaded s.failed =
        .success files.length)) ∧
    (∀ s : PoolState, (∃ x ∈ s.workers, x ≠ WStatus.done) →
      ∃ t, Step files fails s t) ∧
    (∀ e, uploadFolderFatal (.error e) = some e) ∧
    (∀ fs, uploadFolderFatal (.ok fs) = none) := by
  have hpathOk : ∀ i ∈ List.range files.length, pathOkB files i = true := by
    intro i hi
    have hlt : i < files.length := List.mem_range.mp hi
    have hmem : files.getD i "" = files[i] := List.getD_eq_getElem files "" hlt
    simp only [pathOkB, hmem, Bool.not_eq_true', beq_eq_false_iff_ne]
    exact hfiles _ (List.getElem_mem hlt)
  refine ⟨?_, ?_, fun e => rfl, fun fs => rfl⟩
  · intro n s hsteps hterm
    obtain ⟨_, _, hup, hfail, _, _⟩ := pool_terminal_facts hwkr hsteps hterm
    have hfail' : s.failed = (List.range files.length).countP (fun i => fails i) := by
      rw [hfail]
      apply List.countP_congr
      intro i hi
      rw [hpathOk i hi]
      simp
    have hsum : s.uploaded + s.failed = files.length := by
      rw [hup, hfail]
      have h1 : (List.range files.length).countP
          (fun i => pathOkB files i && !(fails i)) =
          (List.range files.length).countP (fun i => !(fails i)) := by
        apply List.countP_congr
        intro i hi
        rw [hpathOk i hi]
        simp
      have h2 : (List.range files.length).countP
          (fun i => pathOkB files i && fails i) =
          (List.range files.length).countP (fun i => fails i) := by
        apply List.countP_congr
        intro i hi
        rw [hpathOk i hi]
        simp
      have h3 := List.length_eq_countP_add_countP (fun i => fails i)
        (List.range files.length)
      have h4 : (List.range files.length).countP
          (fun a => decide ¬(fails a) = true) =
          (List.range files.length).countP (fun i => !(fails i)) := by
        apply List.countP_congr
        intro i _
        simp
      rw [List.length_range] at h3
      omega
    refine ⟨hfail', hsum, ?_, ?_⟩
    · intro hpos
      unfold summarize
      rw [if_pos hpos]
      have : s.uploaded = files.length - s.failed := by omega
      rw [this]
    · intro hzero
      unfold summarize
      rw [if_neg (by omega)]
  · rintro s ⟨x, hx, hne⟩
    by_contra hnone
    push_neg at hnone
    have hterm : Terminal files fails s := fun t hstep => hnone t hstep
    exact hne ((terminal_iff_allDone files fails s).mp hterm x hx)

/-- C4 witness: a one-file run whose only upload fails ends with one
failure, zero uploads, and the completed-with-errors summary showing
0 successful and 1 failed; the run was not aborted (it reached a
terminal state). -/
theorem uploadFolder_failure_handling_witness :
    (⟨1, [WStatus.done], [(0, 0)], [0], 0, 1, 1⟩ : PoolState).failed = 1 ∧
    summarize 1 0 1 = UploadSummary.withErrors 0 1 := by
  have hstep1 : Step ["a"] (fun _ => true) (initPool 1)
      ⟨1, [WStatus.busy 0], [(0, 0)], [], 0, 0, 1⟩ :=
    Step.claim_put (initPool 1) 0 rfl (by decide) (by decide)
  have hstep2 : Step ["a"] (fun _ => true)
      ⟨1, [WStatus.busy 0], [(0, 0)], [], 0, 0, 1⟩
      ⟨1, [WStatus.idle], [(0, 0)], [0], 0, 1, 1⟩ :=
    Step.finish_fail ⟨1, [WStatus.busy 0], [(0, 0)], [], 0, 0, 1⟩ 0 0 rfl rfl
  have hstep3 : Step ["a"] (fun _ => true)
      ⟨1, [WStatus.idle], [(0, 0)], [0], 0, 1, 1⟩
      ⟨1, [WStatus.done], [(0, 0)], [0], 0, 1, 1⟩ :=
    Step.exit ⟨1, [WStatus.idle], [(0, 0)], [0], 0, 1, 1⟩ 0 rfl (by decide)
  have hsteps : StepsN ["a"] (fun _ => true) 3 (initPool 1)
      ⟨1, [WStatus.done], [(0, 0)], [0], 0, 1, 1⟩ :=
    StepsN.tail (StepsN.tail (StepsN.tail (StepsN.refl _) hstep1) hstep2) hstep3
  have hterm : Terminal ["a"] (fun _ => true)
      ⟨1, [WStatus.done], [(0, 0)], [0], 0, 1, 1⟩ := by
    rw [terminal_iff_allDone]
    intro x hx
    exact List.mem_singleton.mp hx
  have h := (uploadFolder_failure_handling ["a"] (fun _ => true) 1 (by omega)
    (by decide)).1 3 _ hsteps hterm
  refine ⟨?_, ?_⟩
  · exact h.1.trans (by decide)
  · exact h.2.2.1 (by decide)

end CellarDeploy
